import Mathlib

/-!
Verification of the ImageMatrix application (`main.py` plus the engine
modules it drives).  The GUI shell `main.py` is embedded directly; the
engine modules `sorter.py`, `stitcher.py` and `slicer.py` are imported by
`main.py` but absent from the source tree, so those collaborators are
modelled from the specification, as marked on each definition.
-/

namespace ImageMatrix

/-- Modelled from the spec: the repository's `sorter.py` (`sort_files`) is
missing from the source tree, so the natural-order sequencer of spec §4.1 is
modelled here.  `basename` keeps the part of a path after the last `/`
(the spec keys on the filename, as does `os.path.basename` in `main.py`). -/
def basename (p : String) : String :=
  String.mk ((p.toList.reverse.takeWhile (fun c => c ≠ '/')).reverse)

/-- Split a character list into maximal runs of digits / non-digits,
tagging each run with `true` when it is a digit run. -/
def runsOf : List Char → List (Bool × List Char)
  | [] => []
  | c :: cs =>
    match runsOf cs with
    | [] => [(c.isDigit, [c])]
    | (b, r) :: rest =>
      if c.isDigit = b then (b, c :: r) :: rest
      else (c.isDigit, [c]) :: (b, r) :: rest

/-- Numeric value of a digit run. -/
def digitsVal (l : List Char) : Nat :=
  l.foldl (fun n c => n * 10 + (c.toNat - 48)) 0

/-- One key component: digit runs compare numerically and sort before
non-digit runs, which compare as plain text (lexicographically by
character, which is the string order). -/
def runKey (br : Bool × List Char) : Nat ⊕ₗ List Char :=
  if br.1 then toLex (Sum.inl (digitsVal br.2)) else toLex (Sum.inr br.2)

/-- Modelled from the spec: the natural sort key of §4.1 — alternating
digit/non-digit runs of the filename, digit runs numeric; ties resolve by
the plain filename, then by the full path (the contract demands a
deterministic order on path sets). -/
def natKey (p : String) : List (Nat ⊕ₗ List Char) ×ₗ (List Char ×ₗ List Char) :=
  toLex ((runsOf (basename p).toList).map runKey, toLex ((basename p).toList, p.toList))

/-- The comparison relation of the natural sequencer. -/
def natLE (a b : String) : Prop := natKey a ≤ natKey b

instance : DecidableRel natLE :=
  fun a b => inferInstanceAs (Decidable (natKey a ≤ natKey b))

instance : IsTotal String natLE := ⟨fun a b => le_total (natKey a) (natKey b)⟩

instance : IsTrans String natLE := ⟨fun _ _ _ h1 h2 => le_trans h1 h2⟩

theorem natKey_inj : Function.Injective natKey := by
  intro a b h
  have h2 := congrArg (fun k => (ofLex (ofLex k).2).2) h
  simp only [natKey] at h2
  exact String.ext h2

instance : IsAntisymm String natLE :=
  ⟨fun _ _ h1 h2 => natKey_inj (le_antisymm h1 h2)⟩

/-- Modelled from the spec: `sort_files` of the missing `sorter.py` —
order a list of paths by the natural key of §4.1. -/
def sort_files (l : List String) : List String := l.insertionSort natLE

theorem sort_files_perm (l : List String) : (sort_files l).Perm l :=
  List.perm_insertionSort natLE l

theorem sort_files_sorted (l : List String) : List.Sorted natLE (sort_files l) :=
  List.sorted_insertionSort natLE l

theorem sort_files_perm_inv {l l' : List String} (h : l.Perm l') :
    sort_files l = sort_files l' :=
  List.eq_of_perm_of_sorted
    ((sort_files_perm l).trans (h.trans (sort_files_perm l').symm))
    (sort_files_sorted l) (sort_files_sorted l')

/-- C5: the natural-order sequencer compares filenames by alternating
digit/non-digit runs, digit runs numerically and non-digit runs as plain
text; ordering the set containing img2.png, img10.png, img1.png (in any
enumeration order) returns exactly [img1.png, img2.png, img10.png]. -/
theorem natural_order_example (l : List String)
    (h : l.Perm ["img2.png", "img10.png", "img1.png"]) :
    sort_files l = ["img1.png", "img2.png", "img10.png"] := by
  rw [sort_files_perm_inv h]
  decide

theorem natural_order_example_witness :
    (["img2.png", "img10.png", "img1.png"] : List String).Perm
      ["img2.png", "img10.png", "img1.png"] ∧
    sort_files ["img2.png", "img10.png", "img1.png"] =
      ["img1.png", "img2.png", "img10.png"] :=
  ⟨by decide, natural_order_example _ (by decide)⟩

/-- C6: the sequencer is deterministic (any two enumerations of the same
path set sort to the same sequence) and stable (sorting `old ∪ new` and
restricting to the elements of `old` reproduces the sort of `old` alone). -/
theorem sequencer_deterministic_stable :
    (∀ l l' : List String, l.Perm l' → sort_files l = sort_files l') ∧
    (∀ old new : List String, (∀ x ∈ new, x ∉ old) →
      (sort_files (old ++ new)).filter (fun x => decide (x ∈ old)) =
        sort_files old) := by
  refine ⟨fun l l' h => sort_files_perm_inv h, fun old new hdisj => ?_⟩
  have e1 : (old ++ new).filter (fun x => decide (x ∈ old)) = old := by
    rw [List.filter_append]
    have h1 : old.filter (fun x => decide (x ∈ old)) = old :=
      List.filter_eq_self.mpr (fun a ha => by simpa using ha)
    have h2 : new.filter (fun x => decide (x ∈ old)) = [] :=
      List.filter_eq_nil_iff.mpr (fun a ha => by simpa using hdisj a ha)
    rw [h1, h2, List.append_nil]
  have p1 : ((sort_files (old ++ new)).filter (fun x => decide (x ∈ old))).Perm
      (sort_files old) := by
    refine ((sort_files_perm (old ++ new)).filter _).trans ?_
    rw [e1]
    exact (sort_files_perm old).symm
  exact List.eq_of_perm_of_sorted p1
    ((sort_files_sorted _).filter _) (sort_files_sorted old)

theorem sequencer_deterministic_stable_witness :
    (["b.png", "a.png"] : List String).Perm ["a.png", "b.png"] ∧
    sort_files ["b.png", "a.png"] = sort_files ["a.png", "b.png"] ∧
    (∀ x ∈ (["c.png"] : List String), x ∉ (["a.png", "b.png"] : List String)) ∧
    (sort_files (["a.png", "b.png"] ++ ["c.png"])).filter
        (fun x => decide (x ∈ (["a.png", "b.png"] : List String))) =
      sort_files ["a.png", "b.png"] :=
  ⟨by decide, sequencer_deterministic_stable.1 _ _ (by decide),
   by decide, sequencer_deterministic_stable.2 _ _ (by decide)⟩

/-! ### Slice geometry (spec §4.4, `smart_mode = false`) -/

/-- Modelled from the spec: `slicer.py` (`slice_image`) is missing from the
source tree.  Spec §4.4 step 3: with `smart_mode` false the cut points are
the `piece_count - 1` ideal multiples of `ideal_height = H / k` rounded to
integer rows (`round(i * H / k) = ⌊(2 * i * H + k) / (2 * k)⌋`, round half
up), and the last piece absorbs the rounding remainder by ending at `H`.
`cutB k H i` is the first row of piece `i`; `cutB k H k = H`. -/
def cutB (k H i : Nat) : Nat :=
  if i < k then (2 * i * H + k) / (2 * k) else H

/-- Height of piece `i`: rows `cutB k H i` up to (excluding) `cutB k H (i+1)`. -/
def pieceHeight (k H i : Nat) : Nat := cutB k H (i + 1) - cutB k H i

theorem cutB_zero (k H : Nat) (hk : 1 ≤ k) : cutB k H 0 = 0 := by
  unfold cutB
  rw [if_pos (show 0 < k by omega)]
  exact Nat.div_eq_of_lt (by omega)

theorem cutB_last (k H : Nat) : cutB k H k = H := by
  simp [cutB]

theorem cutB_le_succ (k H : Nat) (hk : 1 ≤ k) (i : Nat) :
    cutB k H i ≤ cutB k H (i + 1) := by
  unfold cutB
  by_cases h1 : i + 1 < k
  · rw [if_pos h1, if_pos (by omega)]
    exact Nat.div_le_div_right (by nlinarith)
  · rw [if_neg h1]
    by_cases h2 : i < k
    · rw [if_pos h2]
      have hb : 0 < 2 * k := by omega
      have hle : 2 * i * H + k ≤ k + 2 * k * H := by nlinarith
      calc (2 * i * H + k) / (2 * k) ≤ (k + 2 * k * H) / (2 * k) :=
            Nat.div_le_div_right hle
        _ = k / (2 * k) + H := Nat.add_mul_div_left k H hb
        _ = H := by rw [Nat.div_eq_of_lt (by omega)]; omega
    · rw [if_neg h2]

theorem cutB_mono (k H : Nat) (hk : 1 ≤ k) : Monotone (cutB k H) :=
  monotone_nat_of_le_succ (cutB_le_succ k H hk)

theorem cutB_lt_succ (k H : Nat) (hk : 1 ≤ k) (hH : k ≤ H) (i : Nat)
    (hi : i < k) : cutB k H i < cutB k H (i + 1) := by
  unfold cutB
  have hb : 0 < 2 * k := by omega
  by_cases h1 : i + 1 < k
  · rw [if_pos h1, if_pos hi]
    have step : 2 * i * H + k + 2 * k ≤ 2 * (i + 1) * H + k := by nlinarith
    calc (2 * i * H + k) / (2 * k)
        < (2 * i * H + k) / (2 * k) + 1 := Nat.lt_succ_self _
      _ = (2 * i * H + k + 2 * k) / (2 * k) := (Nat.add_div_right _ hb).symm
      _ ≤ (2 * (i + 1) * H + k) / (2 * k) := Nat.div_le_div_right step
  · rw [if_neg h1, if_pos hi]
    have hnum : 2 * i * H + k < 2 * k * H := by nlinarith
    exact Nat.div_lt_of_lt_mul hnum

theorem cutB_telescope (k H : Nat) (hk : 1 ≤ k) :
    ∀ n, ∑ i ∈ Finset.range n, pieceHeight k H i = cutB k H n - cutB k H 0 := by
  intro n
  induction n with
  | zero => simp
  | succ n ih =>
    rw [Finset.sum_range_succ, ih]
    have h1 : cutB k H 0 ≤ cutB k H n := cutB_mono k H hk (Nat.zero_le n)
    have h2 : cutB k H n ≤ cutB k H (n + 1) := cutB_le_succ k H hk n
    unfold pieceHeight
    omega

theorem exists_piece_of_monotone (b : Nat → Nat) :
    ∀ (k r : Nat), b 0 ≤ r → r < b k → ∃ i, i < k ∧ b i ≤ r ∧ r < b (i + 1) := by
  intro k
  induction k with
  | zero => intro r h0 hk; omega
  | succ k ih =>
    intro r h0 hk
    by_cases h : r < b k
    · obtain ⟨i, hi, h1, h2⟩ := ih r h0 h
      exact ⟨i, by omega, h1, h2⟩
    · exact ⟨k, Nat.lt_succ_self k, by omega, hk⟩

/-- C2: for every `SliceJob` with `smart_mode = false` and every piece count
`k` from 1 to the source height `H`, the `k` pieces are contiguous,
non-overlapping, nonempty row ranges covering every pixel row exactly once,
and the piece heights sum exactly to `H` (the last piece absorbing the
rounding remainder). -/
theorem slice_plain_partition (H k : Nat) (h1 : 1 ≤ k) (h2 : k ≤ H) :
    (∑ i ∈ Finset.range k, pieceHeight k H i) = H ∧
    (∀ r, r < H → ∃! i, i < k ∧ cutB k H i ≤ r ∧ r < cutB k H (i + 1)) ∧
    (∀ i, i < k → cutB k H i < cutB k H (i + 1)) := by
  refine ⟨?_, ?_, fun i hi => cutB_lt_succ k H h1 h2 i hi⟩
  · rw [cutB_telescope k H h1 k, cutB_last, cutB_zero k H h1]
    omega
  · intro r hr
    obtain ⟨i, hik, hlo, hhi⟩ :=
      exists_piece_of_monotone (cutB k H) k r
        (by rw [cutB_zero k H h1]; exact Nat.zero_le r)
        (by rw [cutB_last]; exact hr)
    refine ⟨i, ⟨hik, hlo, hhi⟩, ?_⟩
    rintro j ⟨hjk, hjlo, hjhi⟩
    by_contra hne
    rcases Nat.lt_or_ge j i with hji | hij
    · have : cutB k H (j + 1) ≤ cutB k H i := cutB_mono k H h1 (by omega)
      omega
    · have hij' : i < j := by omega
      have : cutB k H (i + 1) ≤ cutB k H j := cutB_mono k H h1 (by omega)
      omega

theorem slice_plain_partition_witness :
    1 ≤ 3 ∧ 3 ≤ 10 ∧
    ((∑ i ∈ Finset.range 3, pieceHeight 3 10 i) = 10 ∧
     (∀ r, r < 10 → ∃! i, i < 3 ∧ cutB 3 10 i ≤ r ∧ r < cutB 3 10 (i + 1)) ∧
     (∀ i, i < 3 → cutB 3 10 i < cutB 3 10 (i + 1))) :=
  ⟨by decide, by decide, slice_plain_partition 10 3 (by decide) (by decide)⟩

/-! ### Stitch grouping (spec §4.3 step 3) -/

/-- Modelled from the spec: `stitcher.py` (`stitch_images`) is missing from
the source tree.  Spec §4.3 step 3: the ordered sources are partitioned into
`group_count` contiguous groups of as-equal-as-possible size — sizes
`⌊n/g⌋` or `⌈n/g⌉`, the remainder going to the first groups. -/
def groupSizes (n g : Nat) : List Nat :=
  (List.range g).map (fun i => n / g + if i < n % g then 1 else 0)

/-- Cut an ordered source list into consecutive groups of the given sizes. -/
def takeGroups {α : Type*} : List Nat → List α → List (List α)
  | [], _ => []
  | s :: rest, l => l.take s :: takeGroups rest (l.drop s)

/-- Partition the ordered (resized) sources into `g` contiguous groups. -/
def stitchGroups {α : Type*} (g : Nat) (l : List α) : List (List α) :=
  takeGroups (groupSizes l.length g) l

theorem range_map_threshold (q r : Nat) :
    ∀ g, (List.range g).map (fun i => q + if i < r then 1 else 0) =
      List.replicate (min r g) (q + 1) ++ List.replicate (g - min r g) q := by
  intro g
  induction g with
  | zero => simp
  | succ g ih =>
    rw [List.range_succ, List.map_append, ih]
    by_cases h : g < r
    · have h1 : min r g = g := by omega
      have h2 : min r (g + 1) = g + 1 := by omega
      simp only [h1, h2, List.map_cons, List.map_nil, if_pos h]
      rw [Nat.sub_self, Nat.sub_self, List.replicate_zero, List.append_nil,
        List.append_nil, ← List.replicate_succ']
    · have h1 : min r g = r := by omega
      have h2 : min r (g + 1) = r := by omega
      simp only [h1, h2, List.map_cons, List.map_nil, if_neg h, Nat.add_zero]
      rw [List.append_assoc, ← List.replicate_succ']
      have h3 : g - r + 1 = g + 1 - r := by omega
      rw [h3]

theorem groupSizes_shape (n g : Nat) (hg : 1 ≤ g) :
    groupSizes n g =
      List.replicate (n % g) (n / g + 1) ++ List.replicate (g - n % g) (n / g) := by
  have hr : min (n % g) g = n % g := by
    have := Nat.mod_lt n (show 0 < g by omega)
    omega
  rw [groupSizes, range_map_threshold (n / g) (n % g) g, hr]

theorem groupSizes_sum (n g : Nat) (hg : 1 ≤ g) : (groupSizes n g).sum = n := by
  rw [groupSizes_shape n g hg, List.sum_append, List.sum_replicate, List.sum_replicate]
  have hmod := Nat.mod_lt n (show 0 < g by omega)
  have hdm := Nat.div_add_mod n g
  have hsub := Nat.sub_mul (g) (n % g) (n / g)
  have hle : n % g * (n / g) ≤ g * (n / g) :=
    Nat.mul_le_mul_right _ (by omega)
  have hexp : n % g * (n / g + 1) = n % g * (n / g) + n % g := by ring
  simp only [smul_eq_mul] at *
  omega

theorem takeGroups_length {α : Type*} :
    ∀ (sizes : List Nat) (l : List α), (takeGroups sizes l).length = sizes.length
  | [], _ => rfl
  | _ :: rest, l => by
    simp only [takeGroups, List.length_cons, takeGroups_length rest (l.drop _)]

theorem takeGroups_join {α : Type*} :
    ∀ (sizes : List Nat) (l : List α), (takeGroups sizes l).flatten = l.take sizes.sum
  | [], l => by simp [takeGroups]
  | s :: rest, l => by
    simp only [takeGroups, List.flatten_cons, takeGroups_join rest (l.drop s),
      List.sum_cons]
    exact (List.take_add l s rest.sum).symm

theorem takeGroups_lengths {α : Type*} :
    ∀ (sizes : List Nat) (l : List α), sizes.sum ≤ l.length →
      (takeGroups sizes l).map List.length = sizes
  | [], _, _ => rfl
  | s :: rest, l, h => by
    have hs : s + rest.sum ≤ l.length := by simpa using h
    simp only [takeGroups, List.map_cons, List.length_take]
    rw [takeGroups_lengths rest (l.drop s) (by simp; omega)]
    congr 1
    omega

/-- C3: for every `MergeJob` with `n` ordered sources and `group_count`
`g ≥ 1`, the stitch engine partitions the sources into `g` contiguous groups
whose sizes are `⌈n/g⌉` for the first `n % g` groups and `⌊n/g⌋` for the
rest, every source appearing exactly once with group order matching read
order (the concatenation of the groups is the source list); in particular
`n = 7, g = 3` yields sizes `[3, 2, 2]`. -/
theorem stitch_grouping {α : Type*} (l : List α) (g : Nat) (hg : 1 ≤ g) :
    (stitchGroups g l).length = g ∧
    (stitchGroups g l).flatten = l ∧
    (stitchGroups g l).map List.length =
      List.replicate (l.length % g) (l.length / g + 1) ++
        List.replicate (g - l.length % g) (l.length / g) ∧
    groupSizes 7 3 = [3, 2, 2] := by
  have hsum := groupSizes_sum l.length g hg
  refine ⟨?_, ?_, ?_, by decide⟩
  · rw [stitchGroups, takeGroups_length]
    simp [groupSizes]
  · rw [stitchGroups, takeGroups_join, hsum, List.take_length]
  · rw [stitchGroups, takeGroups_lengths _ _ (le_of_eq hsum),
      groupSizes_shape l.length g hg]

theorem stitch_grouping_witness :
    1 ≤ 3 ∧
    ((stitchGroups 3 ["a", "b", "c", "d", "e", "f", "g"]).length = 3 ∧
     (stitchGroups 3 ["a", "b", "c", "d", "e", "f", "g"]).flatten =
       ["a", "b", "c", "d", "e", "f", "g"] ∧
     (stitchGroups 3 ["a", "b", "c", "d", "e", "f", "g"]).map List.length =
       List.replicate (7 % 3) (7 / 3 + 1) ++ List.replicate (3 - 7 % 3) (7 / 3) ∧
     groupSizes 7 3 = [3, 2, 2]) :=
  ⟨by decide, stitch_grouping ["a", "b", "c", "d", "e", "f", "g"] 3 (by decide)⟩

/-! ### Size-budget encoder (spec §4.2)

The encoder is parametric in the abstract codec collaborators of spec §6:
`enc bm q` is the byte length of encoding bitmap `bm` at quality `q`, and
`down bm` is `bm` downscaled once by the fixed ratio. -/

/-- Result of a size-budget export: byte length of the returned stream, the
budget-met flag, and how many downscale rounds were performed. -/
structure EncResult where
  size : Nat
  met : Bool
  downs : Nat
  deriving DecidableEq

/-- First quality on the ladder whose encoding fits the byte limit. -/
def tryLadder (e : Nat → Nat) (limit : Nat) : List Nat → Option Nat
  | [] => none
  | q :: qs => if e q ≤ limit then some (e q) else tryLadder e limit qs

/-- Smallest encoded size over one pass of the quality ladder. -/
def ladderMin (e : Nat → Nat) : List Nat → Option Nat
  | [] => none
  | q :: qs =>
    match ladderMin e qs with
    | none => some (e q)
    | some m => some (min (e q) m)

/-- Pointwise minimum of two optional candidate sizes. -/
def optMin : Option Nat → Option Nat → Option Nat
  | none, m => m
  | some b, none => some b
  | some b, some m => some (min b m)

/-- Modelled from the spec: the bounded quality-then-downscale search of
§4.2 (`slicer.py`/`stitcher.py` and their shared encoder are missing from
the source tree).  Each round walks the quality ladder; on failure the
bitmap is downscaled and the search repeats, up to `fuel` downscale rounds,
after which the smallest candidate produced is returned flagged as budget
not met. -/
def encodeCore {B : Type*} (enc : B → Nat → Nat) (down : B → B)
    (ladder : List Nat) (limit : Nat) :
    Nat → B → Nat → Option Nat → EncResult
  | fuel, bm, depth, best =>
    match tryLadder (enc bm) limit ladder with
    | some s => ⟨s, true, depth⟩
    | none =>
      let best' := optMin best (ladderMin (enc bm) ladder)
      match fuel with
      | 0 => ⟨best'.getD 0, false, depth⟩
      | f + 1 => encodeCore enc down ladder limit f (down bm) (depth + 1) best'

/-- Modelled from the spec: `encode(pixels, limit_bytes?)` of §4.2 — a null
or zero limit means no budget enforcement (single encode at the top of the
quality ladder); otherwise the bounded search runs with at most 6 downscale
rounds. -/
def encodeBudget {B : Type*} (enc : B → Nat → Nat) (down : B → B)
    (ladder : List Nat) (bm : B) (limit : Option Nat) : EncResult :=
  match limit with
  | none => ⟨enc bm (ladder.headD 95), true, 0⟩
  | some L =>
    if L = 0 then ⟨enc bm (ladder.headD 95), true, 0⟩
    else encodeCore enc down ladder L 6 bm 0 none

/-- Every encoded size attempted through `d` downscale rounds. -/
def candidates {B : Type*} (enc : B → Nat → Nat) (down : B → B)
    (ladder : List Nat) : B → Nat → List Nat
  | bm, 0 => ladder.map (enc bm)
  | bm, d + 1 => ladder.map (enc bm) ++ candidates enc down ladder (down bm) d

/-- Smallest candidate through `d` downscale rounds. -/
def candMin {B : Type*} (enc : B → Nat → Nat) (down : B → B)
    (ladder : List Nat) : B → Nat → Option Nat
  | bm, 0 => ladderMin (enc bm) ladder
  | bm, d + 1 =>
    optMin (ladderMin (enc bm) ladder) (candMin enc down ladder (down bm) d)

theorem optMin_assoc (a b c : Option Nat) :
    optMin (optMin a b) c = optMin a (optMin b c) := by
  rcases a with _ | a <;> rcases b with _ | b <;> rcases c with _ | c <;>
    simp [optMin, Nat.min_assoc]

theorem ladderMin_spec (e : Nat → Nat) :
    ∀ ladder : List Nat, ladder ≠ [] →
      ∃ m, ladderMin e ladder = some m ∧ m ∈ ladder.map e ∧
        ∀ c ∈ ladder.map e, m ≤ c
  | [], h => absurd rfl h
  | q :: qs, _ => by
    rcases hqs : qs with _ | ⟨q', qs'⟩
    · exact ⟨e q, by simp [ladderMin], by simp, by simp⟩
    · obtain ⟨m, hm, hmem, hmin⟩ := ladderMin_spec e (q' :: qs') (by simp)
      have hstep : ladderMin e (q :: q' :: qs') =
          match ladderMin e (q' :: qs') with
          | none => some (e q)
          | some m => some (min (e q) m) := rfl
      refine ⟨min (e q) m, by rw [hstep, hm], ?_, ?_⟩
      · rcases Nat.le_total (e q) m with h | h
        · simp [Nat.min_eq_left h]
        · have := hmem
          rw [Nat.min_eq_right h]
          simpa using Or.inr (by simpa using this)
      · intro c hc
        simp only [List.map_cons, List.mem_cons] at hc
        rcases hc with rfl | hc
        · exact Nat.min_le_left _ _
        · exact le_trans (Nat.min_le_right _ _) (hmin c (by simpa using hc))

theorem candMin_spec {B : Type*} (enc : B → Nat → Nat) (down : B → B)
    (ladder : List Nat) (hl : ladder ≠ []) :
    ∀ (d : Nat) (bm : B),
      ∃ m, candMin enc down ladder bm d = some m ∧
        m ∈ candidates enc down ladder bm d ∧
        ∀ c ∈ candidates enc down ladder bm d, m ≤ c
  | 0, bm => by
    obtain ⟨m, hm, hmem, hmin⟩ := ladderMin_spec (enc bm) ladder hl
    exact ⟨m, hm, hmem, hmin⟩
  | d + 1, bm => by
    obtain ⟨m1, hm1, hmem1, hmin1⟩ := ladderMin_spec (enc bm) ladder hl
    obtain ⟨m2, hm2, hmem2, hmin2⟩ := candMin_spec enc down ladder hl d (down bm)
    refine ⟨min m1 m2, ?_, ?_, ?_⟩
    · simp [candMin, hm1, hm2, optMin]
    · rcases Nat.le_total m1 m2 with h | h
      · rw [Nat.min_eq_left h]
        exact List.mem_append_left _ hmem1
      · rw [Nat.min_eq_right h]
        exact List.mem_append_right _ hmem2
    · intro c hc
      rcases List.mem_append.mp hc with hc | hc
      · exact le_trans (Nat.min_le_left _ _) (hmin1 c hc)
      · exact le_trans (Nat.min_le_right _ _) (hmin2 c hc)

theorem encodeCore_spec {B : Type*} (enc : B → Nat → Nat) (down : B → B)
    (ladder : List Nat) (L : Nat) :
    ∀ (fuel : Nat) (bm : B) (depth : Nat) (best : Option Nat),
      depth ≤ (encodeCore enc down ladder L fuel bm depth best).downs ∧
      (encodeCore enc down ladder L fuel bm depth best).downs ≤ depth + fuel ∧
      ((encodeCore enc down ladder L fuel bm depth best).met = false →
        (encodeCore enc down ladder L fuel bm depth best).downs = depth + fuel ∧
        (encodeCore enc down ladder L fuel bm depth best).size =
          (optMin best (candMin enc down ladder bm fuel)).getD 0)
  | 0, bm, depth, best => by
    unfold encodeCore
    rcases h : tryLadder (enc bm) L ladder with _ | s <;> dsimp only
    · exact ⟨le_refl _, by omega, fun _ => ⟨by omega, rfl⟩⟩
    · exact ⟨le_refl _, by omega, fun hc => by simp at hc⟩
  | fuel + 1, bm, depth, best => by
    unfold encodeCore
    rcases h : tryLadder (enc bm) L ladder with _ | s <;> dsimp only
    · have ih := encodeCore_spec enc down ladder L fuel (down bm) (depth + 1)
        (optMin best (ladderMin (enc bm) ladder))
      have h1 := ih.1
      have h2 := ih.2.1
      refine ⟨by omega, by omega, fun hc => ?_⟩
      obtain ⟨hd, hs⟩ := ih.2.2 hc
      refine ⟨by omega, ?_⟩
      rw [hs, show candMin enc down ladder bm (fuel + 1) =
        optMin (ladderMin (enc bm) ladder)
          (candMin enc down ladder (down bm) fuel) from rfl, ← optMin_assoc]
    · exact ⟨le_refl _, by omega, fun hc => by simp at hc⟩

/-- C4: for every bitmap and byte limit the size-budget encoder terminates
within its bounded iteration cap (at most 6 downscale-and-retry rounds on
top of the quality-ladder pass), always returns an encoded byte stream —
the smallest candidate produced, flagged as budget-not-met, when the limit
was unreachable — and a null (or zero) limit performs a single high-quality
encode with no downscale at all. -/
theorem size_budget_encoder {B : Type*} (enc : B → Nat → Nat) (down : B → B)
    (ladder : List Nat) (bm : B) (limit : Option Nat) (hl : ladder ≠ []) :
    (encodeBudget enc down ladder bm limit).downs ≤ 6 ∧
    ((limit = none ∨ limit = some 0) →
      encodeBudget enc down ladder bm limit =
        ⟨enc bm (ladder.headD 95), true, 0⟩) ∧
    ((encodeBudget enc down ladder bm limit).met = false →
      (encodeBudget enc down ladder bm limit).size ∈
        candidates enc down ladder bm 6 ∧
      ∀ c ∈ candidates enc down ladder bm 6,
        (encodeBudget enc down ladder bm limit).size ≤ c) := by
  rcases limit with _ | L
  · exact ⟨by simp [encodeBudget], fun _ => rfl, fun hc => by simp [encodeBudget] at hc⟩
  · by_cases hL : L = 0
    · subst hL
      exact ⟨by simp [encodeBudget], fun _ => by simp [encodeBudget],
        fun hc => by simp [encodeBudget] at hc⟩
    · have hcore := encodeCore_spec enc down ladder L 6 bm 0 none
      obtain ⟨m, hm, hmem, hmin⟩ := candMin_spec enc down ladder hl 6 bm
      have heq : encodeBudget enc down ladder bm (some L) =
          encodeCore enc down ladder L 6 bm 0 none := by
        simp [encodeBudget, hL]
      refine ⟨by rw [heq]; have := hcore.2.1; omega,
        fun hc => by rcases hc with hc | hc <;> simp_all, ?_⟩
      intro hcmet
      rw [heq] at hcmet ⊢
      obtain ⟨-, hs⟩ := hcore.2.2 hcmet
      rw [hs, hm]
      exact ⟨by simpa [optMin] using hmem, fun c hc => by
        simpa [optMin] using hmin c hc⟩

theorem size_budget_encoder_witness :
    ([2, 1] : List Nat) ≠ [] ∧
    ((encodeBudget (fun (b q : Nat) => b + q + 2) (fun b => b / 2) [2, 1] 100
        (some 1)).downs ≤ 6 ∧
     ((some 1 = (none : Option Nat) ∨ some 1 = some 0) →
       encodeBudget (fun (b q : Nat) => b + q + 2) (fun b => b / 2) [2, 1] 100
          (some 1) =
         ⟨100 + ([2, 1] : List Nat).headD 95 + 2, true, 0⟩) ∧
     ((encodeBudget (fun (b q : Nat) => b + q + 2) (fun b => b / 2) [2, 1] 100
          (some 1)).met = false →
       (encodeBudget (fun (b q : Nat) => b + q + 2) (fun b => b / 2) [2, 1] 100
           (some 1)).size ∈
         candidates (fun (b q : Nat) => b + q + 2) (fun b => b / 2) [2, 1] 100 6 ∧
       ∀ c ∈ candidates (fun (b q : Nat) => b + q + 2) (fun b => b / 2) [2, 1] 100 6,
         (encodeBudget (fun (b q : Nat) => b + q + 2) (fun b => b / 2) [2, 1] 100
             (some 1)).size ≤ c)) :=
  ⟨by decide,
   size_budget_encoder (fun (b q : Nat) => b + q + 2) (fun b => b / 2) [2, 1] 100
     (some 1) (by decide)⟩

/-! ### Size-limit slider conversion (`main.py` 400-401 and 443-444) -/

/-- `main.py`: `limit_val = self.m_limit_slider.value() * 200` (and the same
for the slice tab) — the slider value 0..5 becomes a kilobyte limit. -/
def sliderToKB (v : Nat) : Nat := v * 200

/-- C7: size limits cross the caller-facing boundary in kilobytes with 0
meaning unlimited: the shell converts slider value `v` (0..5) to exactly
`200 * v` KB, so `v = 0` passes 0, which the core's encoder treats as no
budget enforcement (single high-quality encode, no downscale). -/
theorem slider_limit_conversion {B : Type*} (enc : B → Nat → Nat)
    (down : B → B) (ladder : List Nat) (bm : B) (v : Nat) (_hv : v ≤ 5) :
    sliderToKB v = 200 * v ∧
    encodeBudget enc down ladder bm (some (1024 * sliderToKB 0)) =
      ⟨enc bm (ladder.headD 95), true, 0⟩ := by
  constructor
  · unfold sliderToKB
    omega
  · rfl

theorem slider_limit_conversion_witness :
    0 ≤ 5 ∧
    (sliderToKB 0 = 200 * 0 ∧
     encodeBudget (fun (b q : Nat) => b + q) (fun b => b) [95] 7
        (some (1024 * sliderToKB 0)) =
       ⟨7 + ([95] : List Nat).headD 95, true, 0⟩) :=
  ⟨by decide,
   slider_limit_conversion (fun (b q : Nat) => b + q) (fun b => b) [95] 7 0
     (by decide)⟩

/-! ### Worker threads (`main.py` 15-66)

The engine calls are abstracted as oracles: `Except.ok (success, message)`
models a normal return of `stitch_images` / `slice_image`, `Except.error e`
models a raised exception whose `str(e)` is `e`.  Each `run` function
returns the list of `finished_signal` payloads it emits. -/

/-- `main.py` 26-31: `StitcherThread.run` — emit the engine result, or catch
any exception and emit `(False, str(e))`. -/
def stitcherRun (call : Except String (Bool × String)) : List (Bool × String) :=
  match call with
  | .ok (s, m) => [(s, m)]
  | .error e => [(false, e)]

/-- `main.py` 54: `errors.append(f"{os.path.basename(path)}: {msg}")`. -/
def errEntry (p m : String) : String := basename p ++ ": " ++ m

/-- `main.py` 57: the all-succeeded message. -/
def allOkMsg (c : Nat) : String := "成功切分所有 " ++ toString c ++ " 张图片。"

/-- `main.py` 59-60: the partial-success message with the success count out
of the total and the failure list. -/
def partialMsg (c n : Nat) (es : List String) : String :=
  "部分成功 (" ++ toString c ++ "/" ++ toString n ++ ")。\n失败列表:\n" ++
    String.intercalate "\n" es

/-- `main.py` 62-63: the all-failed message. -/
def allFailMsg (es : List String) : String :=
  "所有图片切分失败:\n" ++ String.intercalate "\n" es

/-- `main.py` 47-54: the per-path loop of `SlicerThread.run`, threading the
success count and the named-failure list; an exception aborts the loop. -/
def sliceLoop (call : String → Except String (Bool × String)) :
    List String → Nat → List String → Except String (Nat × List String)
  | [], c, es => .ok (c, es)
  | p :: ps, c, es =>
    match call p with
    | .error e => .error e
    | .ok (true, _) => sliceLoop call ps (c + 1) es
    | .ok (false, m) => sliceLoop call ps c (es ++ [errEntry p m])

/-- `main.py` 45-66: `SlicerThread.run` — run the loop, then emit overall
success when all or some sources succeeded (with the partial report), and
overall failure only when every source failed; a raised exception emits
`(False, str(e))`. -/
def slicerRun (call : String → Except String (Bool × String))
    (paths : List String) : List (Bool × String) :=
  match sliceLoop call paths 0 [] with
  | .error e => [(false, e)]
  | .ok (c, es) =>
    if c = paths.length then [(true, allOkMsg c)]
    else if 0 < c then [(true, partialMsg c paths.length es)]
    else [(false, allFailMsg es)]

/-- Number of sources in the batch whose `slice_image` call succeeds. -/
def succCount (f : String → Bool × String) (paths : List String) : Nat :=
  (paths.filter (fun p => (f p).1)).length

/-- The failure entries, one per failed source, named by filename. -/
def failList (f : String → Bool × String) (paths : List String) : List String :=
  (paths.filter (fun p => !(f p).1)).map (fun p => errEntry p (f p).2)

theorem sliceLoop_total (f : String → Bool × String) :
    ∀ (ps : List String) (c : Nat) (es : List String),
      sliceLoop (fun p => .ok (f p)) ps c es =
        .ok (c + succCount f ps, es ++ failList f ps)
  | [], c, es => by simp [sliceLoop, succCount, failList]
  | p :: ps, c, es => by
    rcases hfp : f p with ⟨b, m⟩
    cases b
    · have hstep : sliceLoop (fun p => .ok (f p)) (p :: ps) c es =
          sliceLoop (fun p => .ok (f p)) ps c (es ++ [errEntry p m]) := by
        simp [sliceLoop, hfp]
      rw [hstep, sliceLoop_total f ps c (es ++ [errEntry p m])]
      have h1 : succCount f (p :: ps) = succCount f ps := by
        simp [succCount, List.filter_cons, hfp]
      have h2 : failList f (p :: ps) = errEntry p m :: failList f ps := by
        simp [failList, List.filter_cons, hfp]
      rw [h1, h2, List.append_assoc]
      rfl
    · have hstep : sliceLoop (fun p => .ok (f p)) (p :: ps) c es =
          sliceLoop (fun p => .ok (f p)) ps (c + 1) es := by
        simp [sliceLoop, hfp]
      rw [hstep, sliceLoop_total f ps (c + 1) es]
      have h1 : succCount f (p :: ps) = succCount f ps + 1 := by
        simp [succCount, List.filter_cons, hfp]
      have h2 : failList f (p :: ps) = failList f ps := by
        simp [failList, List.filter_cons, hfp]
      rw [h1, h2]
      congr 2
      omega

/-- C1: in a slice batch where at least one source succeeds and at least one
fails, the run reports overall success with the success count out of the
total and the failure list naming each failed source by filename; only when
every source fails does the run report overall failure. -/
theorem slice_batch_report (f : String → Bool × String) (paths : List String) :
    (0 < succCount f paths → succCount f paths < paths.length →
      slicerRun (fun p => .ok (f p)) paths =
        [(true, partialMsg (succCount f paths) paths.length (failList f paths))]) ∧
    (succCount f paths = 0 → paths ≠ [] →
      slicerRun (fun p => .ok (f p)) paths =
        [(false, allFailMsg (failList f paths))]) := by
  have hloop := sliceLoop_total f paths 0 []
  simp only [Nat.zero_add, List.nil_append] at hloop
  constructor
  · intro hpos hlt
    rw [slicerRun, hloop]
    dsimp only
    rw [if_neg (by omega), if_pos hpos]
  · intro hzero hne
    have hlen : paths.length ≠ 0 := fun h => hne (List.eq_nil_of_length_eq_zero h)
    rw [slicerRun, hloop]
    dsimp only
    rw [if_neg (by omega), if_neg (by omega)]

theorem slice_batch_report_witness :
    0 < succCount (fun p => (decide (p ≠ "b.png"), "decode failed"))
        ["a.png", "b.png", "c.png"] ∧
    succCount (fun p => (decide (p ≠ "b.png"), "decode failed"))
        ["a.png", "b.png", "c.png"] < (["a.png", "b.png", "c.png"] : List String).length ∧
    slicerRun (fun p => .ok ((fun p => (decide (p ≠ "b.png"), "decode failed")) p))
        ["a.png", "b.png", "c.png"] =
      [(true, partialMsg
          (succCount (fun p => (decide (p ≠ "b.png"), "decode failed"))
            ["a.png", "b.png", "c.png"])
          (["a.png", "b.png", "c.png"] : List String).length
          (failList (fun p => (decide (p ≠ "b.png"), "decode failed"))
            ["a.png", "b.png", "c.png"]))] :=
  ⟨by decide, by decide,
   (slice_batch_report (fun p => (decide (p ≠ "b.png"), "decode failed"))
      ["a.png", "b.png", "c.png"]).1 (by decide) (by decide)⟩

/-- C9: every run of a stitch or slice worker emits exactly one finished
result consisting of a success flag and a message, and an exception raised
by the underlying engine call is caught and emitted as a failure carrying
the exception's message rather than propagating. -/
theorem worker_single_emission (r : Except String (Bool × String))
    (call : String → Except String (Bool × String)) (paths : List String)
    (e : String) :
    (stitcherRun r).length = 1 ∧
    (slicerRun call paths).length = 1 ∧
    stitcherRun (.error e) = [(false, e)] ∧
    (sliceLoop call paths 0 [] = .error e →
      slicerRun call paths = [(false, e)]) := by
  refine ⟨?_, ?_, rfl, ?_⟩
  · rcases r with e' | ⟨s, m⟩ <;> rfl
  · rw [slicerRun]
    rcases sliceLoop call paths 0 [] with e' | ⟨c, es⟩
    · rfl
    · dsimp only
      by_cases h1 : c = paths.length
      · rw [if_pos h1]
        rfl
      · rw [if_neg h1]
        by_cases h2 : 0 < c
        · rw [if_pos h2]
          rfl
        · rw [if_neg h2]
          rfl
  · intro h
    rw [slicerRun, h]

theorem worker_single_emission_witness :
    sliceLoop (fun _ => .error "boom") ["x.png"] 0 [] = .error "boom" ∧
    slicerRun (fun _ => .error "boom") ["x.png"] = [(false, "boom")] :=
  ⟨by rfl,
   (worker_single_emission (.ok (true, "ok")) (fun _ => .error "boom")
      ["x.png"] "boom").2.2.2 (by rfl)⟩

/-! ### Merge-tab state machine (`main.py` 332-368, 376-408)

`merge_images`, the split slider's maximum and its value evolve through
drop events, the clear button, and slider moves.  The QSlider contract is
part of the model: the minimum is 1 (`main.py` 175), and both `setMaximum`
and user moves clamp the value into `[minimum, maximum]`. -/

structure MergeUI where
  images : List String
  sliderMax : Nat
  sliderVal : Nat

/-- The user events that touch the merge tab's state. -/
inductive MergeEv
  | drop (new : List String)
  | clear
  | slide (v : Nat)

/-- `main.py` 341-346 (drop: union with the existing set, re-sort, slider
maximum becomes `max(1, len(merge_images))`), 364-368 (clear: empty list,
slider maximum 1 and value 1), plus slider moves clamped by Qt. -/
def mergeStep (s : MergeUI) : MergeEv → MergeUI
  | .drop new =>
    let imgs := sort_files ((s.images ++ new).dedup)
    let mx := max 1 imgs.length
    ⟨imgs, mx, max 1 (min s.sliderVal mx)⟩
  | .clear => ⟨[], 1, 1⟩
  | .slide v => ⟨s.images, s.sliderMax, max 1 (min v s.sliderMax)⟩

/-- `main.py` 75, 174-176: empty list, slider range `[1, 1]`, value 1. -/
def mergeInit : MergeUI := ⟨[], 1, 1⟩

/-- State after a sequence of merge-tab events. -/
def runMerge (es : List MergeEv) : MergeUI := es.foldl mergeStep mergeInit

/-- Invariant tying the split slider to the loaded image list. -/
def MergeInv (s : MergeUI) : Prop :=
  s.images.Nodup ∧ s.sliderMax = max 1 s.images.length ∧
    1 ≤ s.sliderVal ∧ s.sliderVal ≤ s.sliderMax

theorem mergeStep_inv {s : MergeUI} (hs : MergeInv s) (e : MergeEv) :
    MergeInv (mergeStep s e) := by
  obtain ⟨hnd, hmax, h1, h2⟩ := hs
  cases e with
  | drop new =>
    refine ⟨?_, rfl, le_max_left _ _, ?_⟩
    · exact ((sort_files_perm _).nodup_iff).mpr (List.nodup_dedup _)
    · simp only [mergeStep]
      omega
  | clear => exact ⟨List.nodup_nil, rfl, le_refl 1, le_refl 1⟩
  | slide v =>
    refine ⟨hnd, hmax, le_max_left _ _, ?_⟩
    simp only [mergeStep]
    omega

theorem runMerge_inv (es : List MergeEv) : MergeInv (runMerge es) := by
  suffices h : ∀ s, MergeInv s → MergeInv (es.foldl mergeStep s) from
    h mergeInit ⟨List.nodup_nil, rfl, le_refl 1, le_refl 1⟩
  induction es with
  | nil => exact fun s hs => hs
  | cons e es ih => exact fun s hs => ih _ (mergeStep_inv hs e)

/-- C8: after every event sequence the split slider's value is at least 1
and, whenever the merge list is nonempty (the only case in which
`start_stitching` dispatches a job, `main.py` 377-379), at most the number
of loaded images — so the group count passed to the engine lies in
`[1, len(merge_images)]`; and clearing the list resets the slider to
maximum 1 and value 1. -/
theorem split_slider_bounds (es : List MergeEv) :
    1 ≤ (runMerge es).sliderVal ∧
    ((runMerge es).images ≠ [] →
      (runMerge es).sliderVal ≤ (runMerge es).images.length) ∧
    (∀ s : MergeUI, mergeStep s .clear = ⟨[], 1, 1⟩) := by
  obtain ⟨hnd, hmax, h1, h2⟩ := runMerge_inv es
  refine ⟨h1, fun hne => ?_, fun s => rfl⟩
  have hlen : 0 < (runMerge es).images.length := List.length_pos.mpr hne
  omega

theorem split_slider_bounds_witness :
    (runMerge [MergeEv.drop ["x.png"]]).images ≠ [] ∧
    (runMerge [MergeEv.drop ["x.png"]]).sliderVal ≤
      (runMerge [MergeEv.drop ["x.png"]]).images.length :=
  ⟨by decide, (split_slider_bounds [MergeEv.drop ["x.png"]]).2.1 (by decide)⟩

/-! ### Custom-width input parsing (`main.py` 386-398, 429-441) -/

/-- Python's `str.strip()`: drop whitespace from both ends. -/
def pyStrip (t : String) : String :=
  String.mk
    (((t.toList.dropWhile Char.isWhitespace).reverse.dropWhile
        Char.isWhitespace).reverse)

/-- The merge tab's export-width radio selection (`main.py` 126-143). -/
inductive MergeWidthSel
  | original
  | w750
  | w1080
  | custom

/-- `main.py` 386-398: resolve the merge job's target width.  `none` is the
input-error path (warning shown, no job started); `some w` starts the job
with width `w`, where `w = none` keeps the native width.  With the custom
radio selected, empty (stripped) text raises `ValueError`, caught as an
input error. -/
def mergeTargetWidth (sel : MergeWidthSel) (txt : String) : Option (Option Nat) :=
  match sel with
  | .original => some none
  | .w750 => some (some 750)
  | .w1080 => some (some 1080)
  | .custom =>
    let t := pyStrip txt
    if t = "" then none
    else
      match t.toNat? with
      | some w => some (some w)
      | none => none

/-- `main.py` 429-441: resolve the slice job's target width.  With the
custom radio selected, empty (stripped) text silently substitutes the
default placeholder width 750 and the job runs; unparsable text is an
input error. -/
def sliceTargetWidth (customSel : Bool) (txt : String) : Option (Option Nat) :=
  if customSel then
    let t := pyStrip txt
    if t = "" then some (some 750)
    else
      match t.toNat? with
      | some w => some (some w)
      | none => none
  else some none

/-- C10: with the custom-width option selected and the width field empty,
starting a slice job silently substitutes the default 750-pixel target
width and runs, whereas starting a merge job shows an input error and does
not start. -/
theorem empty_custom_width (txt : String) (h : pyStrip txt = "") :
    sliceTargetWidth true txt = some (some 750) ∧
    mergeTargetWidth .custom txt = none := by
  constructor
  · simp [sliceTargetWidth, h]
  · simp [mergeTargetWidth, h]

theorem empty_custom_width_witness :
    pyStrip "" = "" ∧
    (sliceTargetWidth true "" = some (some 750) ∧
     mergeTargetWidth .custom "" = none) :=
  ⟨by decide, empty_custom_width "" (by decide)⟩

end ImageMatrix
